import Mathlib

/-!
Shallow embedding of the dot.gov.reader analysis core
(`src/lib/analysis/word-count.ts`, `src/lib/analysis/agency-stats.ts`,
`src/scripts/utils/retry.ts`) and proofs about it.

JavaScript strings are modelled as `List Char` (`Str`); JavaScript numbers
are modelled as `Nat` where the code only ever produces non-negative
integers, and as `ℚ` for the division-producing average fields.
Insertion-ordered JavaScript `Map`/`Set` objects are modelled as
association lists / duplicate-free lists with set-in-place update,
which preserves the first-insertion position of a key exactly as the
JavaScript collections do.  `Array.prototype.sort` (stable in the
runtimes the repository targets) is modelled as a stable insertion sort.
-/

set_option maxHeartbeats 1000000

abbrev Str := List Char

/-- JavaScript whitespace test used by both `trim` and the `\s+` split. -/
def isWs (c : Char) : Bool := c.isWhitespace

/-- Leading-whitespace removal. -/
def trimLeft (l : Str) : Str := l.dropWhile isWs

/-- Trailing-whitespace removal. -/
def trimRight (l : Str) : Str := (l.reverse.dropWhile isWs).reverse

/-- `String.prototype.trim` (removing trailing whitespace first and
leading whitespace second — the two orders agree). -/
def jsTrim (l : Str) : Str := trimLeft (trimRight l)

mutual

/-- `String.prototype.split(/\s+/)`, inside a token whose (reversed)
characters so far are `acc`. -/
def splitAux : Str → Str → List Str
  | [], acc => [acc.reverse]
  | c :: cs, acc =>
    if isWs c then acc.reverse :: splitSkip cs
    else splitAux cs (c :: acc)

/-- `String.prototype.split(/\s+/)`, inside a (maximal) whitespace
separator run. -/
def splitSkip : Str → List Str
  | [] => [[]]
  | c :: cs => if isWs c then splitSkip cs else splitAux cs [c]

end

/-- `s.split(/\s+/)`: tokens between maximal whitespace runs (with the
empty tokens JavaScript produces at the ends). -/
def splitWsPlus (l : Str) : List Str := splitAux l []

/-- `countWords` from `word-count.ts`: `if (!text) return 0;` then
`text.trim().split(/\s+/).filter(Boolean).length`.  The argument is
`string | undefined`; `undefined` and `""` are both falsy. -/
def countWords : Option Str → Nat
  | none => 0
  | some text =>
    if text.isEmpty then 0
    else ((splitWsPlus (jsTrim text)).filter (fun w => !w.isEmpty)).length

/-- Specification-side counter: the number of maximal non-whitespace runs
of a character list, tracked with a flag saying whether we are currently
inside such a run. -/
def runCountAux : Bool → Str → Nat
  | _, [] => 0
  | inRun, c :: cs =>
    if isWs c then runCountAux false cs
    else (if inRun then 0 else 1) + runCountAux true cs

/-- Specification-side counter: the number of maximal non-whitespace runs. -/
def runCount (l : Str) : Nat := runCountAux false l

/-- A structure node of a regulation document tree (`StructureNode` in
`lib/ecfr/types`): identifier, type tag, optional label, optional
`content`/`text` fields, ordered children. -/
inductive StructureNode where
  | mk (identifier : Str) (type : Str) (label : Option Str)
       (content : Option Str) (text : Option Str)
       (children : List StructureNode)

def StructureNode.identifier : StructureNode → Str
  | .mk i _ _ _ _ _ => i

def StructureNode.type : StructureNode → Str
  | .mk _ t _ _ _ _ => t

def StructureNode.label : StructureNode → Option Str
  | .mk _ _ l _ _ _ => l

def StructureNode.content : StructureNode → Option Str
  | .mk _ _ _ c _ _ => c

def StructureNode.text : StructureNode → Option Str
  | .mk _ _ _ _ t _ => t

def StructureNode.children : StructureNode → List StructureNode
  | .mk _ _ _ _ _ cs => cs

/-- `getNodeContent` from `word-count.ts`: concatenate the truthy
`content` field and (space-joined) truthy `text` field, then trim. -/
def getNodeContent (node : StructureNode) : Str :=
  let c1 : Str := match node.content with
    | some s => if s.isEmpty then [] else s
    | none => []
  let c2 : Str := match node.text with
    | some s => if s.isEmpty then c1 else c1 ++ (' ' :: s)
    | none => c1
  jsTrim c2

/-- `ElementWordCount` record from `lib/analysis/types`. -/
structure ElementWordCount where
  identifier : Str
  type : Str
  label : Option Str
  wordCount : Nat
  characterCount : Nat
deriving DecidableEq, Repr

/-- Per-`type` accumulator held in the `hierarchyCounts` map. -/
structure HierAcc where
  count : Nat
  totalWords : Nat
deriving DecidableEq, Repr

/-- `Map.prototype.get` on a string-keyed insertion-ordered map. -/
def mapFind (m : List (Str × β)) (k : Str) : Option β :=
  match m with
  | [] => none
  | (k0, v0) :: rest => if k0 = k then some v0 else mapFind rest k

/-- `Map.prototype.set` on a string-keyed insertion-ordered map: updates
an existing key in place (keeping its original position), otherwise
appends. -/
def mapSet (m : List (Str × β)) (k : Str) (v : β) : List (Str × β) :=
  match m with
  | [] => [(k, v)]
  | (k0, v0) :: rest =>
    if k0 = k then (k0, v) :: rest else (k0, v0) :: mapSet rest k v

/-- The insertion-ordered `Map<string, {count, totalWords}>`. -/
abbrev HMap := List (Str × HierAcc)

/-- The element record `processNode` pushes for a node. -/
def nodeElement (node : StructureNode) : ElementWordCount :=
  let content := getNodeContent node
  { identifier := node.identifier
    type := node.type
    label := node.label
    wordCount := countWords (some content)
    characterCount := content.length }

mutual

/-- `processNode` from `word-count.ts`: push the node's own element
record, bump its type's entry in the hierarchy map, recurse into the
children, and return the node's own word count plus the children's
returned totals.  The mutable `elements` array and `hierarchyCounts` map
are threaded explicitly. -/
def processNode : StructureNode → List ElementWordCount → HMap →
    Nat × List ElementWordCount × HMap
  | .mk id ty lb ct tx children, elements, hierarchyCounts =>
    let node := StructureNode.mk id ty lb ct tx children
    let content := getNodeContent node
    let wordCount := countWords (some content)
    let elements1 := elements ++ [nodeElement node]
    let existing := (mapFind hierarchyCounts ty).getD ⟨0, 0⟩
    let h1 := mapSet hierarchyCounts ty
      ⟨existing.count + 1, existing.totalWords + wordCount⟩
    let rc := processChildren children elements1 h1
    (wordCount + rc.1, rc.2.1, rc.2.2)

/-- The `for (const child of node.children)` loop of `processNode`. -/
def processChildren : List StructureNode → List ElementWordCount → HMap →
    Nat × List ElementWordCount × HMap
  | [], es, h => (0, es, h)
  | c :: cs, es, h =>
    let r1 := processNode c es h
    let r2 := processChildren cs r1.2.1 r1.2.2
    (r1.1 + r2.1, r2.2.1, r2.2.2)

end

/-- Stable insertion of `x` into `l`: `x` goes in front of the first `y`
it may precede (`le x y`), and behind every earlier element it may not.
With `le x y` = "the JavaScript comparator says `x` sorts at or before
`y`", folding a list through this reproduces a stable comparison sort. -/
def insertStable (le : α → α → Bool) (x : α) : List α → List α
  | [] => [x]
  | y :: ys => if le x y then x :: y :: ys else y :: insertStable le x ys

/-- Stable comparison sort (model of `Array.prototype.sort`, which is
stable in the targeted runtimes). -/
def sortStable (le : α → α → Bool) : List α → List α
  | [] => []
  | x :: xs => insertStable le x (sortStable le xs)

/-- Lexicographic strict order on character lists (the order
`a.type.localeCompare(b.type)` induces on the plain-ASCII type tags the
analyzer encounters). -/
def strLt : Str → Str → Bool
  | [], [] => false
  | [], _ :: _ => true
  | _ :: _, [] => false
  | a :: as, b :: bs =>
    if a < b then true else if b < a then false else strLt as bs

/-- `HierarchyWordCount` record from `lib/analysis/types`. -/
structure HierarchyWordCount where
  type : Str
  count : Nat
  totalWords : Nat
  averageWords : ℚ
deriving DecidableEq, Repr

/-- `TitleStructure` from `lib/ecfr/types`: the root structure node of a
title's document tree together with the title number it carries. -/
structure TitleStructure where
  title : Nat
  root : StructureNode

/-- `WordCountResult` record from `lib/analysis/types`. -/
structure WordCountResult where
  title : Nat
  titleName : Option Str
  totalWords : Nat
  totalCharacters : Nat
  totalElements : Nat
  byHierarchy : List HierarchyWordCount
  topElements : List ElementWordCount
  sections : List ElementWordCount
deriving DecidableEq, Repr

/-- The `HierarchyWordCount` record `analyzeWordCount` builds from one
entry of the hierarchy map (`averageWords = totalWords / count` when
`count > 0`, else 0). -/
def hierRecordOf (p : Str × HierAcc) : HierarchyWordCount :=
  { type := p.1
    count := p.2.count
    totalWords := p.2.totalWords
    averageWords :=
      if p.2.count > 0 then (p.2.totalWords : ℚ) / (p.2.count : ℚ) else 0 }

/-- The `byHierarchy` sort comparator
(`(a, b) => a.type.localeCompare(b.type)`): `a` may sort at or before `b`
when `b.type` is not strictly below `a.type`. -/
def hierLe (a b : HierarchyWordCount) : Bool := !(strLt b.type a.type)

/-- `analyzeWordCount` from `word-count.ts`. -/
def analyzeWordCount (s : TitleStructure) : WordCountResult :=
  let r := processNode s.root [] []
  let totalWords := r.1
  let elements := r.2.1
  let hierarchyCounts := r.2.2
  let totalCharacters := elements.foldl (fun sum el => sum + el.characterCount) 0
  let byHierarchy : List HierarchyWordCount := hierarchyCounts.map hierRecordOf
  let byHierarchy := sortStable hierLe byHierarchy
  let topElements :=
    (sortStable (fun a b => decide (b.wordCount ≤ a.wordCount)) elements).take 10
  let sections := elements.filter (fun el => el.type = "section".toList)
  { title := s.title
    titleName := s.root.label
    totalWords
    totalCharacters
    totalElements := elements.length
    byHierarchy
    topElements
    sections }

/-- Summary record returned by `getWordCountSummary`.  The
`longestTitle`/`shortestTitle` fields are `Option`s because the
JavaScript `reduce` with initial value `results[0]` produces `undefined`
on an empty batch. -/
structure WordCountSummary where
  titleCount : Nat
  totalWords : Nat
  totalElements : Nat
  averageWordsPerTitle : ℚ
  longestTitle : Option WordCountResult
  shortestTitle : Option WordCountResult
deriving DecidableEq, Repr

/-- `getWordCountSummary` from `word-count.ts`. -/
def getWordCountSummary (results : List WordCountResult) : WordCountSummary :=
  let totalWords := results.foldl (fun sum r => sum + r.totalWords) 0
  let totalElements := results.foldl (fun sum r => sum + r.totalElements) 0
  { titleCount := results.length
    totalWords
    totalElements
    averageWordsPerTitle :=
      if results.length > 0 then (totalWords : ℚ) / (results.length : ℚ) else 0
    longestTitle :=
      match results with
      | [] => none
      | r0 :: _ =>
        some (results.foldl
          (fun max r => if r.totalWords > max.totalWords then r else max) r0)
    shortestTitle :=
      match results with
      | [] => none
      | r0 :: _ =>
        some (results.foldl
          (fun min r => if r.totalWords < min.totalWords then r else min) r0) }

/-- A CFR reference `{title, chapter?, part?}` from `lib/ecfr/types`. -/
structure CFRReference where
  title : Nat
  chapter : Option Str
  part : Option Str

/-- An agency node (`Agency` in `lib/ecfr/types`): name, slug, optional
short name, optional CFR reference list, optional sub-agency list. -/
inductive Agency where
  | mk (name : Str) (slug : Str) (short_name : Option Str)
       (cfr_references : Option (List CFRReference))
       (children : Option (List Agency))

def Agency.name : Agency → Str
  | .mk n _ _ _ _ => n

def Agency.slug : Agency → Str
  | .mk _ s _ _ _ => s

def Agency.shortName : Agency → Option Str
  | .mk _ _ sn _ _ => sn

def Agency.cfrReferences : Agency → Option (List CFRReference)
  | .mk _ _ _ r _ => r

def Agency.subAgencies : Agency → Option (List Agency)
  | .mk _ _ _ _ c => c

/-- `AgencyStat` record from `lib/analysis/types`. -/
structure AgencyStat where
  name : Str
  slug : Str
  shortName : Option Str
  titleCount : Nat
  chapterCount : Nat
  partCount : Nat
  titles : List Nat
deriving DecidableEq, Repr

/-- The insertion-ordered `Map<string, AgencyStat>`. -/
abbrev AMap := List (Str × AgencyStat)

/-- `Set.prototype.add`: insertion-ordered, first occurrence kept. -/
def addUnique [DecidableEq α] (s : List α) (x : α) : List α :=
  if x ∈ s then s else s ++ [x]

/-- Decimal rendering of a natural number (the `${ref.title}` part of the
template-string keys). -/
def natToStr (n : Nat) : Str := (Nat.repr n).toList

/-- The reference loop of `processAgency`: builds the distinct-title,
distinct-`title-chapter` and distinct-`title-part` sets from an agency's
own `cfr_references` (the truthiness guards on `ref.chapter`/`ref.part`
skip absent and empty-string values). -/
def agencyRefSets (refs : Option (List CFRReference)) :
    List Nat × List Str × List Str :=
  match refs with
  | none => ([], [], [])
  | some rs =>
    rs.foldl (fun acc ref =>
      let titles := addUnique acc.1 ref.title
      let chapters := match ref.chapter with
        | some ch =>
          if ch.isEmpty then acc.2.1
          else addUnique acc.2.1 (natToStr ref.title ++ ('-' :: ch))
        | none => acc.2.1
      let parts := match ref.part with
        | some p =>
          if p.isEmpty then acc.2.2
          else addUnique acc.2.2 (natToStr ref.title ++ ('-' :: p))
        | none => acc.2.2
      (titles, chapters, parts)) ([], [], [])

/-- The `AgencyStat` record `processAgency` stores when the agency's
distinct-title set is non-empty. -/
def agencyOwnStat (a : Agency) : AgencyStat :=
  let sets := agencyRefSets a.cfrReferences
  { name := a.name
    slug := a.slug
    shortName := a.shortName
    titleCount := sets.1.length
    chapterCount := sets.2.1.length
    partCount := sets.2.2.length
    titles := sortStable (fun x y => decide (x ≤ y)) sets.1 }

mutual

/-- `processAgency` from `agency-stats.ts`: store the node's own stat
record (if it references at least one title) under its slug, then
recurse into the sub-agencies.  The mutable `results` map is threaded
explicitly. -/
def processAgency : Agency → AMap → AMap
  | .mk name slug short_name cfr_references children, results =>
    let a := Agency.mk name slug short_name cfr_references children
    let titles := (agencyRefSets cfr_references).1
    let results :=
      if titles.length > 0 then mapSet results slug (agencyOwnStat a)
      else results
    match children with
    | some cs => if cs.length > 0 then processAgencyList cs results else results
    | none => results

/-- The `for (const child of agency.children)` loop of `processAgency`
(also the `for (const agency of agencies)` loop of `analyzeAgencyStats`). -/
def processAgencyList : List Agency → AMap → AMap
  | [], rs => rs
  | c :: cs, rs => processAgencyList cs (processAgency c rs)

end

/-- A title registry entry (`Title` in `lib/ecfr/types`); only the fields
the aggregator reads are modelled. -/
structure Title where
  number : Nat
  name : Str
  reserved : Bool

/-- `TitleDistribution` record from `lib/analysis/types`. -/
structure TitleDistribution where
  titleNumber : Nat
  titleName : Str
  agencyCount : Nat
  agencies : List Str
deriving DecidableEq, Repr

/-- `AgencyStatsResult` record from `lib/analysis/types`. -/
structure AgencyStatsResult where
  totalAgencies : Nat
  agenciesWithReferences : Nat
  totalTitles : Nat
  averageTitlesPerAgency : ℚ
  topAgencies : List AgencyStat
  titleDistribution : List TitleDistribution
deriving DecidableEq, Repr

/-- The per-title map accumulation of `analyzeAgencyStats`: ensure a set
exists for `titleNum`, then add `slug` to it. -/
def tamAdd (m : List (Nat × List Str)) (titleNum : Nat) (slug : Str) :
    List (Nat × List Str) :=
  match m with
  | [] => [(titleNum, addUnique [] slug)]
  | (t0, s0) :: rest =>
    if t0 = titleNum then (t0, addUnique s0 slug) :: rest
    else (t0, s0) :: tamAdd rest titleNum slug

/-- `analyzeAgencyStats` from `agency-stats.ts`. -/
def analyzeAgencyStats (agencies : List Agency) (titles : Option (List Title)) :
    AgencyStatsResult :=
  let agencyStats := processAgencyList agencies []
  let allStats := agencyStats.map (fun p => p.2)
  let totalAgencies := agencies.length
  let agenciesWithReferences := allStats.length
  let totalTitles := match titles with
    | some ts => ts.length
    | none => 50
  let totalTitleReferences : Nat :=
    allStats.foldl (fun sum stat => sum + stat.titleCount) 0
  let averageTitlesPerAgency : ℚ :=
    if agenciesWithReferences > 0 then
      (totalTitleReferences : ℚ) / (agenciesWithReferences : ℚ)
    else 0
  let topAgencies :=
    (sortStable (fun a b => decide (b.titleCount ≤ a.titleCount)) allStats).take 10
  let titleAgenciesMap :=
    allStats.foldl (fun m stat =>
      stat.titles.foldl (fun m titleNum => tamAdd m titleNum stat.slug) m) []
  let titleDistribution : List TitleDistribution :=
    titleAgenciesMap.map (fun p =>
      let fallback : Str := "Title ".toList ++ natToStr p.1
      { titleNumber := p.1
        titleName :=
          match titles with
          | some ts =>
            match ts.find? (fun t => t.number = p.1) with
            | some t => if t.name.isEmpty then fallback else t.name
            | none => fallback
          | none => fallback
        agencyCount := p.2.length
        agencies := p.2 })
  let titleDistribution :=
    sortStable (fun a b => decide (b.agencyCount ≤ a.agencyCount))
      titleDistribution
  { totalAgencies
    agenciesWithReferences
    totalTitles
    averageTitlesPerAgency
    topAgencies
    titleDistribution }

/-- `getAgencyBySlug` from `agency-stats.ts`: run the same forest walk as
`analyzeAgencyStats` and look the slug up in the resulting map. -/
def getAgencyBySlug (agencies : List Agency) (slug : Str) :
    Option AgencyStat :=
  mapFind (processAgencyList agencies []) slug

/-- A JavaScript `Error` as `retry.ts` inspects it: its `message`, and an
optional numeric `status` property (present on HTTP error objects). -/
structure JsError where
  message : Str
  status : Option Nat
deriving DecidableEq, Repr

/-- `startsWith s pat` at the list level. -/
def startsWithList : Str → Str → Bool
  | _, [] => true
  | [], _ :: _ => false
  | c :: cs, p :: ps => c = p && startsWithList cs ps

/-- `String.prototype.includes`. -/
def strIncludes : Str → Str → Bool
  | [], pat => pat.isEmpty
  | c :: cs, pat => startsWithList (c :: cs) pat || strIncludes cs pat

/-- `isRetryableError` from `retry.ts`.  `none` models a thrown value
that is not an `Error` instance. -/
def isRetryableError (error : Option JsError) : Bool :=
  match error with
  | none => false
  | some e =>
    if strIncludes e.message "fetch failed".toList
        || strIncludes e.message "ECONNREFUSED".toList
        || strIncludes e.message "ETIMEDOUT".toList
        || strIncludes e.message "ENOTFOUND".toList then
      true
    else
      match e.status with
      | some status => status = 429 || (500 ≤ status && status < 600)
      | none => false

/-- `RetryOptions` from `retry.ts`, with the defaults `retryWithBackoff`
destructures from `RETRY_CONFIG` in `lib/ecfr/constants`:
`maxAttempts: 3, initialDelay: 1000, maxDelay: 10000, factor: 2`. -/
structure RetryOptions where
  maxAttempts : Nat := 3
  initialDelay : Nat := 1000
  maxDelay : Nat := 10000
  factor : Nat := 2

/-- The error `retryWithBackoff` throws on its unreachable final line. -/
def retryFailedUnknown : JsError :=
  { message := "Retry failed with unknown error".toList, status := none }

/-- The `for (let attempt = 1; attempt <= maxAttempts; attempt++)` loop
of `retryWithBackoff`.  `fn i` is the outcome of the `i`-th call of the
wrapped function; `remaining` counts the attempts still allowed
(`maxAttempts - attempt + 1`).  The result carries the outcome, the
number of calls made, and the list of waits slept between attempts. -/
def retryAux (fn : Nat → Except JsError α) (maxDelay factor : Nat) :
    Nat → Nat → Nat → List Nat → Except JsError α × Nat × List Nat
  | 0, attempt, _, waits => (.error retryFailedUnknown, attempt - 1, waits)
  | remaining + 1, attempt, delay, waits =>
    match fn attempt with
    | .ok v => (.ok v, attempt, waits)
    | .error e =>
      match remaining with
      | 0 => (.error e, attempt, waits)
      | _ + 1 =>
        retryAux fn maxDelay factor remaining (attempt + 1) (delay * factor)
          (waits ++ [min delay maxDelay])

/-- `retryWithBackoff` from `retry.ts` (the `onRetry` callback, which
does not influence the control flow, is not modelled). -/
def retryWithBackoff (fn : Nat → Except JsError α) (options : RetryOptions) :
    Except JsError α × Nat × List Nat :=
  retryAux fn options.maxDelay options.factor options.maxAttempts 1
    options.initialDelay []

mutual

/-- Specification-side view of the element list `processNode` builds: the
node's own record followed, pre-order, by the records of its
descendants. -/
def elemsOf : StructureNode → List ElementWordCount
  | .mk id ty lb ct tx children =>
    nodeElement (.mk id ty lb ct tx children) :: elemsOfList children

/-- `elemsOf` over a child list. -/
def elemsOfList : List StructureNode → List ElementWordCount
  | [] => []
  | c :: cs => elemsOf c ++ elemsOfList cs

end

/-- Sum of the `wordCount` fields of a record list. -/
def sumWc (l : List ElementWordCount) : Nat :=
  (l.map (fun e => e.wordCount)).sum

/-- Sum of the `characterCount` fields of a record list. -/
def sumCc (l : List ElementWordCount) : Nat :=
  (l.map (fun e => e.characterCount)).sum

mutual

/-- Specification-side view of the store operations `processAgency`
performs: the `(slug, stat)` pairs of the visited nodes whose
distinct-title set is non-empty, in depth-first visit order. -/
def emittedStats : Agency → List (Str × AgencyStat)
  | .mk name slug short_name cfr_references children =>
    let a := Agency.mk name slug short_name cfr_references children
    (if (agencyRefSets cfr_references).1.length > 0 then
      [(slug, agencyOwnStat a)]
    else []) ++
    (match children with
     | some cs => if cs.length > 0 then emittedStatsList cs else []
     | none => [])

/-- `emittedStats` over an agency list. -/
def emittedStatsList : List Agency → List (Str × AgencyStat)
  | [] => []
  | c :: cs => emittedStats c ++ emittedStatsList cs

end

/-- The slugs of the visited nodes whose distinct-title set is non-empty,
in depth-first visit order. -/
def emittedSlugsList (agencies : List Agency) : List Str :=
  (emittedStatsList agencies).map (fun p => p.1)

/-- The value attached to the last pair of `ps` whose key is `k`. -/
def lastWrite (k : Str) : List (Str × AgencyStat) → Option AgencyStat
  | [] => none
  | p :: ps =>
    match lastWrite k ps with
    | some v => some v
    | none => if p.1 = k then some p.2 else none

/-- Specification-side reading of the node's own text: the trimmed
concatenation of the `content` field (when present) and the `text` field
(when present, space-joined). -/
def specOwnText (node : StructureNode) : Str :=
  jsTrim ((node.content.getD []) ++
    (match node.text with
     | some t => ' ' :: t
     | none => []))

/-- The per-type aggregate the hierarchy map should hold for the element
list `l`: `none` when no element has type `ty`, otherwise the number of
such elements and the sum of their own word counts. -/
def hSummary (l : List ElementWordCount) (ty : Str) : Option HierAcc :=
  let f := l.filter (fun e => e.type = ty)
  if f.isEmpty then none else some ⟨f.length, sumWc f⟩

/-- One `processNode` visit's effect on the hierarchy map. -/
def hAdd (m : HMap) (ty : Str) (wc : Nat) : HMap :=
  let existing := (mapFind m ty).getD ⟨0, 0⟩
  mapSet m ty ⟨existing.count + 1, existing.totalWords + wc⟩

/-- Folding a sequence of visits into the hierarchy map. -/
def hFold (m : HMap) (l : List ElementWordCount) : HMap :=
  l.foldl (fun m e => hAdd m e.type e.wordCount) m

/-- Folding a sequence of emitted `(slug, stat)` stores into the agency
map. -/
def aFold (m : AMap) (ps : List (Str × AgencyStat)) : AMap :=
  ps.foldl (fun m p => mapSet m p.1 p.2) m

/-- The key list of an association-list map. -/
def keysOf (m : List (Str × β)) : List Str := m.map (fun p => p.1)

/-- The stat records backing `analyzeAgencyStats`' result (the values of
the slug-keyed map, in first-insertion order). -/
def statsOf (agencies : List Agency) : List AgencyStat :=
  (processAgencyList agencies []).map (fun p => p.2)

/-- Sum of the `titleCount` fields of a stat list. -/
def sumTitleCounts (l : List AgencyStat) : Nat :=
  (l.map (fun s => s.titleCount)).sum

/-- A forest whose two roots share the slug `"a"` while carrying three
and one distinct title references respectively. -/
def dupSlugForest : List Agency :=
  [Agency.mk "Agency A".toList "a".toList none
      (some [⟨1, none, none⟩, ⟨2, none, none⟩, ⟨3, none, none⟩]) none,
    Agency.mk "Agency A2".toList "a".toList none
      (some [⟨5, none, none⟩]) none]

theorem splitAux_runCount (l : Str) :
    (∀ acc : Str, acc ≠ [] →
      ((splitAux l acc).filter (fun w => !w.isEmpty)).length =
        1 + runCountAux true l) ∧
    ((splitSkip l).filter (fun w => !w.isEmpty)).length = runCountAux false l := by
  induction l with
  | nil =>
    refine ⟨fun acc hacc => ?_, by simp [splitSkip, runCountAux]⟩
    have : acc.reverse.isEmpty = false := by
      cases acc with
      | nil => exact absurd rfl hacc
      | cons a as => simp
    simp [splitAux, runCountAux, List.filter, this]
  | cons c cs ih =>
    constructor
    · intro acc hacc
      by_cases hw : isWs c
      · have hrev : acc.reverse.isEmpty = false := by
          cases acc with
          | nil => exact absurd rfl hacc
          | cons a as => simp
        simp [splitAux, hw, runCountAux, List.filter, hrev, ih.2]
        omega
      · have := ih.1 (c :: acc) (by simp)
        simp [splitAux, hw, runCountAux, this]
    · by_cases hw : isWs c
      · simp [splitSkip, hw, runCountAux, ih.2]
      · have := ih.1 [c] (by simp)
        simp [splitSkip, hw, runCountAux, this]

theorem splitWsPlus_runCount (l : Str) :
    ((splitWsPlus l).filter (fun w => !w.isEmpty)).length = runCount l := by
  cases l with
  | nil => simp [splitWsPlus, splitAux, runCount, runCountAux]
  | cons c cs =>
    by_cases hw : isWs c
    · simpa [splitWsPlus, splitAux, hw, runCount, runCountAux]
        using (splitAux_runCount cs).2
    · simpa [splitWsPlus, splitAux, hw, runCount, runCountAux]
        using (splitAux_runCount cs).1 [c] (by simp)

theorem dropWhile_append_of_forall {p : Char → Bool} :
    ∀ {l m : Str}, (∀ c ∈ l, p c = true) →
      (l ++ m).dropWhile p = m.dropWhile p
  | [], _, _ => rfl
  | c :: cs, m, h => by
    have hc : p c = true := h c (by simp)
    simp only [List.cons_append, List.dropWhile_cons, hc, if_true]
    exact dropWhile_append_of_forall fun x hx => h x (by simp [hx])

theorem trimRight_append_ws (x w : Str) (h : ∀ c ∈ w, isWs c = true) :
    trimRight (x ++ w) = trimRight x := by
  unfold trimRight
  rw [List.reverse_append, dropWhile_append_of_forall]
  intro c hc
  exact h c (by simpa using hc)

theorem jsTrim_append_ws (x w : Str) (h : ∀ c ∈ w, isWs c = true) :
    jsTrim (x ++ w) = jsTrim x := by
  unfold jsTrim
  rw [trimRight_append_ws x w h]

theorem runCountAux_all_ws :
    ∀ (w : Str), (∀ c ∈ w, isWs c = true) → ∀ b, runCountAux b w = 0
  | [], _, _ => rfl
  | c :: cs, h, b => by
    have hc : isWs c = true := h c (by simp)
    simpa [runCountAux, hc] using
      runCountAux_all_ws cs (fun x hx => h x (by simp [hx])) false

theorem runCountAux_append_ws :
    ∀ (l : Str) (b : Bool) (w : Str), (∀ c ∈ w, isWs c = true) →
      runCountAux b (l ++ w) = runCountAux b l
  | [], b, w, h => by simpa using runCountAux_all_ws w h b
  | c :: cs, b, w, h => by
    by_cases hw : isWs c <;>
      simp [runCountAux, hw, runCountAux_append_ws cs _ w h]

theorem runCount_trimLeft (l : Str) : runCount (trimLeft l) = runCount l := by
  unfold trimLeft runCount
  induction l with
  | nil => rfl
  | cons c cs ih =>
    by_cases hw : isWs c
    · simpa [List.dropWhile_cons, hw, runCountAux] using ih
    · simp [List.dropWhile_cons, hw]

theorem runCount_trimRight (l : Str) : runCount (trimRight l) = runCount l := by
  have hdecomp : trimRight l ++ (l.reverse.takeWhile isWs).reverse = l := by
    unfold trimRight
    rw [← List.reverse_append, List.takeWhile_append_dropWhile, List.reverse_reverse]
  have hws : ∀ c ∈ (l.reverse.takeWhile isWs).reverse, isWs c = true := by
    intro c hc
    exact List.mem_takeWhile_imp (by simpa using hc)
  calc runCount (trimRight l)
      = runCount (trimRight l ++ (l.reverse.takeWhile isWs).reverse) :=
        (runCountAux_append_ws _ _ _ hws).symm
    _ = runCount l := by rw [hdecomp]

theorem runCount_jsTrim (l : Str) : runCount (jsTrim l) = runCount l := by
  unfold jsTrim
  rw [runCount_trimLeft, runCount_trimRight]

theorem countWords_eq_runCount (s : Str) :
    countWords (some s) = runCount s := by
  cases s with
  | nil => rfl
  | cons c cs =>
    have h1 : countWords (some (c :: cs)) =
        ((splitWsPlus (jsTrim (c :: cs))).filter (fun w => !w.isEmpty)).length := by
      simp [countWords]
    rw [h1, splitWsPlus_runCount, runCount_jsTrim]

theorem space_all_ws : ∀ c ∈ ([' '] : Str), isWs c = true := by
  intro c hc
  simp only [List.mem_singleton] at hc
  subst hc
  decide

theorem getNodeContent_eq_specOwnText (n : StructureNode) :
    getNodeContent n = specOwnText n := by
  cases n with
  | mk id ty lb ct tx cs =>
    unfold getNodeContent specOwnText
    simp only [StructureNode.content, StructureNode.text]
    cases tx with
    | none =>
      cases ct with
      | none => rfl
      | some s => cases s <;> simp
    | some t =>
      cases t with
      | nil =>
        cases ct with
        | none => simpa using (jsTrim_append_ws [] [' '] space_all_ws).symm
        | some s =>
          cases s with
          | nil => simpa using (jsTrim_append_ws [] [' '] space_all_ws).symm
          | cons a as =>
            simpa using (jsTrim_append_ws (a :: as) [' '] space_all_ws).symm
      | cons b bs =>
        cases ct with
        | none => rfl
        | some s => cases s <;> simp

theorem nodeElement_wordCount (n : StructureNode) :
    (nodeElement n).wordCount = runCount (specOwnText n) := by
  show countWords (some (getNodeContent n)) = runCount (specOwnText n)
  rw [countWords_eq_runCount, getNodeContent_eq_specOwnText]

theorem nodeElement_characterCount (n : StructureNode) :
    (nodeElement n).characterCount = (specOwnText n).length := by
  show (getNodeContent n).length = (specOwnText n).length
  rw [getNodeContent_eq_specOwnText]

/-- C3: a node's own text is the trimmed concatenation of its `content`
field (if present) and its `text` field (if present, space-joined); its
`wordCount` is the number of maximal non-whitespace runs of that trimmed
string, its `characterCount` is the length of the trimmed string, and a
node with neither field has `wordCount` 0 and `characterCount` 0. -/
theorem node_own_text_word_and_character_count :
    (∀ n : StructureNode,
      getNodeContent n = specOwnText n ∧
      (nodeElement n).wordCount = runCount (specOwnText n) ∧
      (nodeElement n).characterCount = (specOwnText n).length) ∧
    (∀ (id ty : Str) (lb : Option Str) (cs : List StructureNode),
      (nodeElement (.mk id ty lb none none cs)).wordCount = 0 ∧
      (nodeElement (.mk id ty lb none none cs)).characterCount = 0) := by
  constructor
  · intro n
    exact ⟨getNodeContent_eq_specOwnText n, nodeElement_wordCount n,
      nodeElement_characterCount n⟩
  · intro id ty lb cs
    constructor <;> rfl

mutual

theorem processNode_spec (n : StructureNode) (es : List ElementWordCount)
    (h : HMap) :
    processNode n es h =
      (sumWc (elemsOf n), es ++ elemsOf n, hFold h (elemsOf n)) := by
  cases n with
  | mk id ty lb ct tx children =>
    have hc : ∀ (es' : List ElementWordCount) (h' : HMap),
        processChildren children es' h' =
          (sumWc (elemsOfList children), es' ++ elemsOfList children,
            hFold h' (elemsOfList children)) :=
      fun es' h' => processChildren_spec children es' h'
    simp only [processNode, elemsOf, hc, Prod.mk.injEq]
    refine ⟨?_, ?_, ?_⟩
    · simp [sumWc, nodeElement]
    · simp
    · simp [hFold, hAdd, nodeElement, StructureNode.type]

theorem processChildren_spec (l : List StructureNode)
    (es : List ElementWordCount) (h : HMap) :
    processChildren l es h =
      (sumWc (elemsOfList l), es ++ elemsOfList l, hFold h (elemsOfList l)) := by
  cases l with
  | nil => simp [processChildren, elemsOfList, sumWc, hFold]
  | cons c cs =>
    have h1 := processNode_spec c es h
    have h2 : ∀ (es' : List ElementWordCount) (h' : HMap),
        processChildren cs es' h' =
          (sumWc (elemsOfList cs), es' ++ elemsOfList cs,
            hFold h' (elemsOfList cs)) :=
      fun es' h' => processChildren_spec cs es' h'
    simp only [processChildren, h1, h2, elemsOfList, Prod.mk.injEq]
    refine ⟨?_, ?_, ?_⟩
    · simp [sumWc]
    · simp
    · simp [hFold, List.foldl_append]

end

/-- C1: `totalWords` equals the sum of `wordCount` over every element
record produced for the tree; equivalently, the value `processNode`
returns for any subtree is the subtree root's own word count plus the
sum of all its descendants' own word counts. -/
theorem totalWords_own_content_additive :
    (∀ t : TitleStructure,
      (analyzeWordCount t).totalWords =
        sumWc ((processNode t.root [] []).2.1) ∧
      (processNode t.root [] []).2.1 = elemsOf t.root) ∧
    (∀ (n : StructureNode) (es : List ElementWordCount) (h : HMap),
      (processNode n es h).1 =
        (nodeElement n).wordCount + sumWc (elemsOfList n.children)) := by
  constructor
  · intro t
    constructor <;> simp [analyzeWordCount, processNode_spec]
  · intro n es h
    rw [processNode_spec]
    cases n with
    | mk id ty lb ct tx children =>
      simp [elemsOf, sumWc, StructureNode.children]

theorem foldl_add_characterCount (l : List ElementWordCount) (a : Nat) :
    l.foldl (fun sum el => sum + el.characterCount) a = a + sumCc l := by
  induction l generalizing a with
  | nil => simp [sumCc]
  | cons e es ih => simp [sumCc, ih, Nat.add_assoc]

/-- C10: `totalCharacters` equals the sum of `characterCount` over every
element record produced for the tree. -/
theorem totalCharacters_own_content_additive (t : TitleStructure) :
    (analyzeWordCount t).totalCharacters =
      sumCc ((processNode t.root [] []).2.1) ∧
    (analyzeWordCount t).totalCharacters = sumCc (elemsOf t.root) := by
  constructor <;>
    simp [analyzeWordCount, processNode_spec, foldl_add_characterCount]

theorem insertStable_perm (le : α → α → Bool) (x : α) (l : List α) :
    (insertStable le x l).Perm (x :: l) := by
  induction l with
  | nil => exact List.Perm.refl _
  | cons y ys ih =>
    by_cases h : le x y
    · simp [insertStable, h]
    · simp only [insertStable, h, if_false, Bool.false_eq_true]
      exact (ih.cons y).trans (List.Perm.swap x y ys)

theorem sortStable_perm (le : α → α → Bool) (l : List α) :
    (sortStable le l).Perm l := by
  induction l with
  | nil => exact List.Perm.refl _
  | cons x xs ih =>
    exact (insertStable_perm le x (sortStable le xs)).trans (ih.cons x)

theorem mem_insertStable {le : α → α → Bool} {x z : α} {l : List α} :
    z ∈ insertStable le x l ↔ z = x ∨ z ∈ l := by
  rw [(insertStable_perm le x l).mem_iff, List.mem_cons]

theorem insertStable_pairwise (le : α → α → Bool)
    (htot : ∀ a b, le a b = true ∨ le b a = true)
    (htrans : ∀ a b c, le a b = true → le b c = true → le a c = true)
    (x : α) (l : List α) (hl : l.Pairwise (fun a b => le a b = true)) :
    (insertStable le x l).Pairwise (fun a b => le a b = true) := by
  induction l with
  | nil => simp [insertStable]
  | cons y ys ih =>
    rw [List.pairwise_cons] at hl
    obtain ⟨hy, hys⟩ := hl
    by_cases h : le x y = true
    · simp only [insertStable, h, if_true]
      refine List.Pairwise.cons ?_ (List.Pairwise.cons hy hys)
      intro z hz
      rcases List.mem_cons.mp hz with rfl | hz
      · exact h
      · exact htrans x y z h (hy z hz)
    · simp only [insertStable, h, if_false]
      refine List.Pairwise.cons ?_ (ih hys)
      intro z hz
      rcases mem_insertStable.mp hz with rfl | hz
      · rcases htot z y with hzy | hyz
        · exact absurd hzy h
        · exact hyz
      · exact hy z hz

theorem sortStable_pairwise (le : α → α → Bool)
    (htot : ∀ a b, le a b = true ∨ le b a = true)
    (htrans : ∀ a b c, le a b = true → le b c = true → le a c = true)
    (l : List α) :
    (sortStable le l).Pairwise (fun a b => le a b = true) := by
  induction l with
  | nil => simp [sortStable]
  | cons x xs ih => exact insertStable_pairwise le htot htrans x _ ih

theorem filter_insertStable_key (k : α → Nat) (x : α) (l : List α) (w : Nat) :
    (insertStable (fun a b => decide (k b ≤ k a)) x l).filter
        (fun e => decide (k e = w)) =
      if k x = w then
        x :: l.filter (fun e => decide (k e = w))
      else l.filter (fun e => decide (k e = w)) := by
  induction l with
  | nil =>
    by_cases hx : k x = w <;> simp [insertStable, List.filter_cons, hx]
  | cons y ys ih =>
    by_cases hle : k y ≤ k x
    · have hins : insertStable (fun a b => decide (k b ≤ k a)) x (y :: ys) =
          x :: y :: ys := by
        simp [insertStable, hle]
      rw [hins]
      by_cases hx : k x = w <;> simp [List.filter_cons, hx]
    · have hins : insertStable (fun a b => decide (k b ≤ k a)) x (y :: ys) =
          y :: insertStable (fun a b => decide (k b ≤ k a)) x ys := by
        simp [insertStable, hle]
      rw [hins]
      have hgt : k x < k y := Nat.lt_of_not_le hle
      by_cases hx : k x = w
      · have hy : ¬ (k y = w) := by omega
        simp [List.filter_cons, hx, hy, ih]
      · by_cases hy : k y = w <;> simp [List.filter_cons, hx, hy, ih]

theorem filter_sortStable_key (k : α → Nat) (l : List α) (w : Nat) :
    (sortStable (fun a b => decide (k b ≤ k a)) l).filter
        (fun e => decide (k e = w)) =
      l.filter (fun e => decide (k e = w)) := by
  induction l with
  | nil => rfl
  | cons x xs ih =>
    by_cases hx : k x = w <;>
      simp [sortStable, filter_insertStable_key, List.filter_cons, hx, ih]

theorem mapFind_nil (k : Str) : mapFind ([] : List (Str × β)) k = none := rfl

theorem mapFind_cons (k0 : Str) (v0 : β) (rest : List (Str × β)) (k : Str) :
    mapFind ((k0, v0) :: rest) k =
      if k0 = k then some v0 else mapFind rest k := rfl

theorem mapSet_nil (k : Str) (v : β) : mapSet [] k v = [(k, v)] := rfl

theorem mapSet_cons (k0 : Str) (v0 : β) (rest : List (Str × β)) (k : Str)
    (v : β) :
    mapSet ((k0, v0) :: rest) k v =
      if k0 = k then (k0, v) :: rest else (k0, v0) :: mapSet rest k v := rfl

theorem keysOf_nil : keysOf ([] : List (Str × β)) = [] := rfl

theorem keysOf_cons (p : Str × β) (rest : List (Str × β)) :
    keysOf (p :: rest) = p.1 :: keysOf rest := rfl

theorem mapFind_mapSet (m : List (Str × β)) (k k' : Str) (v : β) :
    mapFind (mapSet m k v) k' = if k = k' then some v else mapFind m k' := by
  induction m with
  | nil => rw [mapSet_nil, mapFind_cons, mapFind_nil]
  | cons p rest ih =>
    obtain ⟨k0, v0⟩ := p
    rw [mapSet_cons]
    by_cases h0 : k0 = k
    · subst h0
      rw [if_pos rfl]
      by_cases h1 : k0 = k'
      · rw [mapFind_cons, if_pos h1, if_pos h1]
      · rw [mapFind_cons, if_neg h1, if_neg h1, mapFind_cons, if_neg h1]
    · rw [if_neg h0, mapFind_cons, ih, mapFind_cons]
      by_cases h1 : k0 = k'
      · have hne : ¬ k = k' := fun h => h0 (h1.trans h.symm)
        rw [if_pos h1, if_neg hne, if_pos h1]
      · rw [if_neg h1, if_neg h1]

theorem keysOf_mapSet (m : List (Str × β)) (k : Str) (v : β) :
    keysOf (mapSet m k v) = addUnique (keysOf m) k := by
  induction m with
  | nil =>
    rw [mapSet_nil, keysOf_nil, addUnique, if_neg (List.not_mem_nil k)]
    rfl
  | cons p rest ih =>
    obtain ⟨k0, v0⟩ := p
    rw [mapSet_cons]
    by_cases h0 : k0 = k
    · subst h0
      rw [if_pos rfl, addUnique,
        if_pos (show k0 ∈ keysOf ((k0, v0) :: rest) from
          List.mem_cons_self _ _), keysOf_cons, keysOf_cons]
    · rw [if_neg h0]
      have hne : k ≠ k0 := fun h => h0 h.symm
      by_cases hk : k ∈ keysOf rest
      · have hmem : k ∈ keysOf ((k0, v0) :: rest) :=
          List.mem_cons_of_mem _ hk
        rw [keysOf_cons, ih, addUnique, if_pos hk, addUnique, if_pos hmem,
          keysOf_cons]
      · have hmem : k ∉ keysOf ((k0, v0) :: rest) := by
          rw [keysOf_cons]
          intro hcon
          rcases List.mem_cons.mp hcon with h | h
          · exact hne h
          · exact hk h
        rw [keysOf_cons, ih, addUnique, if_neg hk, addUnique, if_neg hmem,
          keysOf_cons, List.cons_append]

theorem mem_addUnique [DecidableEq α] (s : List α) (a x : α) :
    x ∈ addUnique s a ↔ x ∈ s ∨ x = a := by
  by_cases h : a ∈ s
  · simp only [addUnique, h, if_true]
    constructor
    · exact Or.inl
    · rintro (hx | rfl)
      · exact hx
      · exact h
  · simp [addUnique, h]

theorem nodup_addUnique [DecidableEq α] (s : List α) (a : α) (h : s.Nodup) :
    (addUnique s a).Nodup := by
  by_cases ha : a ∈ s
  · simpa [addUnique, ha] using h
  · rw [addUnique, if_neg ha, List.nodup_append]
    refine ⟨h, List.nodup_singleton a, ?_⟩
    intro x hx hxa
    rw [List.mem_singleton] at hxa
    exact ha (hxa ▸ hx)

theorem mem_foldl_addUnique [DecidableEq α] (l : List α) :
    ∀ (ks : List α) (x : α), x ∈ l.foldl addUnique ks ↔ x ∈ ks ∨ x ∈ l := by
  induction l with
  | nil => simp
  | cons a as ih =>
    intro ks x
    rw [List.foldl_cons, ih, mem_addUnique, List.mem_cons, or_assoc]

theorem nodup_foldl_addUnique [DecidableEq α] (l : List α) :
    ∀ ks : List α, ks.Nodup → (l.foldl addUnique ks).Nodup := by
  induction l with
  | nil => intro ks h; simpa using h
  | cons a as ih =>
    intro ks h
    exact ih (addUnique ks a) (nodup_addUnique ks a h)

theorem mapFind_none_iff (m : List (Str × β)) (k : Str) :
    mapFind m k = none ↔ k ∉ keysOf m := by
  induction m with
  | nil =>
    rw [mapFind_nil, keysOf_nil]
    exact ⟨fun _ => List.not_mem_nil k, fun _ => rfl⟩
  | cons p rest ih =>
    obtain ⟨k0, v0⟩ := p
    rw [mapFind_cons, keysOf_cons]
    by_cases h0 : k0 = k
    · rw [if_pos h0]
      constructor
      · intro h
        exact Option.noConfusion h
      · intro h
        exact absurd (by rw [← h0]; exact List.mem_cons_self _ _) h
    · rw [if_neg h0, ih]
      constructor
      · intro h hc
        rcases List.mem_cons.mp hc with he | hm
        · exact h0 he.symm
        · exact h hm
      · intro h hm
        exact h (List.mem_cons_of_mem _ hm)

theorem mapFind_entry (m : List (Str × β)) (hm : (keysOf m).Nodup) :
    ∀ p ∈ m, mapFind m p.1 = some p.2 := by
  induction m with
  | nil =>
    intro p hp
    exact absurd hp (List.not_mem_nil p)
  | cons q rest ih =>
    obtain ⟨k0, v0⟩ := q
    rw [keysOf_cons, List.nodup_cons] at hm
    intro p hp
    rcases List.mem_cons.mp hp with rfl | hp
    · rw [mapFind_cons, if_pos rfl]
    · have hne : k0 ≠ p.1 := by
        intro h
        refine hm.1 ?_
        rw [h]
        exact List.mem_map_of_mem (fun q => q.1) hp
      rw [mapFind_cons, if_neg hne]
      exact ih hm.2 p hp

theorem strLt_asymm : ∀ a b : Str, strLt a b = true → strLt b a = false
  | [], [], h => by simp [strLt] at h
  | [], _ :: _, _ => by simp [strLt]
  | _ :: _, [], h => by simp [strLt] at h
  | a :: as, b :: bs, h => by
    simp only [strLt] at h ⊢
    by_cases hab : a < b
    · have hba : ¬ b < a := lt_asymm hab
      simp [hab, hba]
    · by_cases hba : b < a
      · simp [hab, hba] at h
      · have hrec := strLt_asymm as bs (by simpa [hab, hba] using h)
        simp [hab, hba, hrec]

theorem strLt_trans :
    ∀ a b c : Str, strLt a b = true → strLt b c = true → strLt a c = true
  | [], b, [], h1, h2 => by
    cases b with
    | nil => simp [strLt] at h1
    | cons x xs => simp [strLt] at h2
  | [], _, _ :: _, _, _ => by simp [strLt]
  | _ :: _, [], _, h1, _ => by simp [strLt] at h1
  | a :: as, b :: bs, c :: cs, h1, h2 => by
    simp only [strLt] at h1 h2 ⊢
    by_cases hab : a < b
    · by_cases hbc : b < c
      · simp [lt_trans hab hbc]
      · by_cases hcb : c < b
        · simp [hab, hbc, hcb] at h2
        · have hbceq : b = c := le_antisymm (not_lt.mp hcb) (not_lt.mp hbc)
          subst hbceq
          simp [hab]
    · by_cases hba : b < a
      · simp [hab, hba] at h1
      · have habeq : a = b := le_antisymm (not_lt.mp hba) (not_lt.mp hab)
        subst habeq
        have h1' : strLt as bs = true := by simpa [hab] using h1
        by_cases hac : a < c
        · simp [hac]
        · by_cases hca : c < a
          · simp [hac, hca] at h2
          · have h2' : strLt bs cs = true := by simpa [hac, hca] using h2
            simp [hac, hca, strLt_trans as bs cs h1' h2']

theorem strLt_connex :
    ∀ a b : Str, strLt a b = false → strLt b a = false → a = b
  | [], [], _, _ => rfl
  | [], _ :: _, h1, _ => by simp [strLt] at h1
  | _ :: _, [], _, h2 => by simp [strLt] at h2
  | a :: as, b :: bs, h1, h2 => by
    simp only [strLt] at h1 h2
    by_cases hab : a < b
    · simp [hab] at h1
    · by_cases hba : b < a
      · simp [hab, hba] at h2
      · have habeq : a = b := le_antisymm (not_lt.mp hba) (not_lt.mp hab)
        subst habeq
        have h1' : strLt as bs = false := by simpa [hab] using h1
        have h2' : strLt bs as = false := by simpa [hab] using h2
        rw [strLt_connex as bs h1' h2']

theorem hFold_nil (m : HMap) : hFold m [] = m := rfl

theorem hFold_cons (m : HMap) (e : ElementWordCount)
    (l : List ElementWordCount) :
    hFold m (e :: l) = hFold (hAdd m e.type e.wordCount) l := rfl

theorem hAdd_find (m : HMap) (ty : Str) (wc : Nat) (ty' : Str) :
    mapFind (hAdd m ty wc) ty' =
      if ty = ty' then
        some ⟨((mapFind m ty).getD ⟨0, 0⟩).count + 1,
          ((mapFind m ty).getD ⟨0, 0⟩).totalWords + wc⟩
      else mapFind m ty' := by
  rw [hAdd, mapFind_mapSet]

theorem hSummary_append_self (l₀ : List ElementWordCount)
    (e : ElementWordCount) :
    hSummary (l₀ ++ [e]) e.type =
      some ⟨((hSummary l₀ e.type).getD ⟨0, 0⟩).count + 1,
        ((hSummary l₀ e.type).getD ⟨0, 0⟩).totalWords + e.wordCount⟩ := by
  unfold hSummary
  rw [List.filter_append]
  have he : (List.filter (fun x => decide (x.type = e.type)) [e]) = [e] := by
    simp [List.filter_cons]
  rw [he]
  cases hc : l₀.filter (fun x => decide (x.type = e.type)) with
  | nil => simp [sumWc]
  | cons f fs =>
    simp [sumWc, List.sum_append]
    omega

theorem hSummary_append_other (l₀ : List ElementWordCount)
    (e : ElementWordCount) (ty : Str) (h : ¬ e.type = ty) :
    hSummary (l₀ ++ [e]) ty = hSummary l₀ ty := by
  unfold hSummary
  rw [List.filter_append]
  have he : (List.filter (fun x => decide (x.type = ty)) [e]) = [] := by
    simp [List.filter_cons, h]
  rw [he, List.append_nil]

theorem hFold_find :
    ∀ (l : List ElementWordCount) (m : HMap) (l₀ : List ElementWordCount),
      (∀ ty, mapFind m ty = hSummary l₀ ty) →
      ∀ ty, mapFind (hFold m l) ty = hSummary (l₀ ++ l) ty := by
  intro l
  induction l with
  | nil =>
    intro m l₀ h ty
    rw [hFold_nil, List.append_nil]
    exact h ty
  | cons e es ih =>
    intro m l₀ h ty
    rw [hFold_cons]
    have hstep : ∀ ty', mapFind (hAdd m e.type e.wordCount) ty' =
        hSummary (l₀ ++ [e]) ty' := by
      intro ty'
      rw [hAdd_find, h e.type]
      by_cases he : e.type = ty'
      · rw [if_pos he, ← he, hSummary_append_self]
      · rw [if_neg he, h ty', hSummary_append_other l₀ e ty' he]
    have := ih (hAdd m e.type e.wordCount) (l₀ ++ [e]) hstep ty
    rwa [List.append_assoc, List.singleton_append] at this

theorem keysOf_hFold (l : List ElementWordCount) :
    ∀ m : HMap,
      keysOf (hFold m l) =
        (l.map (fun e => e.type)).foldl addUnique (keysOf m) := by
  induction l with
  | nil => intro m; rfl
  | cons e es ih =>
    intro m
    rw [hFold_cons, ih, List.map_cons, List.foldl_cons, hAdd, keysOf_mapSet]

theorem strNotLt_total (x y : Str) : (!strLt y x) = true ∨ (!strLt x y) = true := by
  cases hb : strLt y x with
  | false => left; simp [hb]
  | true => right; simp [strLt_asymm y x hb]

theorem strNotLt_trans (x y z : Str) :
    (!strLt y x) = true → (!strLt z y) = true → (!strLt z x) = true := by
  intro h1 h2
  rw [Bool.not_eq_true'] at h1 h2 ⊢
  cases hza : strLt z x with
  | false => rfl
  | true =>
    exfalso
    cases hbc : strLt y z with
    | true =>
      have : strLt y x = true := strLt_trans y z x hbc hza
      rw [this] at h1
      exact Bool.noConfusion h1
    | false =>
      have hyz : y = z := strLt_connex y z hbc h2
      rw [hyz, hza] at h1
      exact Bool.noConfusion h1

theorem length_filter_split (l : List ElementWordCount) (k : Str) :
    (l.filter (fun e => e.type = k)).length +
      (l.filter (fun e => ¬ (e.type = k))).length = l.length := by
  induction l with
  | nil => rfl
  | cons e es ih =>
    by_cases h : e.type = k <;>
      simp [List.filter_cons, h, ← ih] <;> omega

theorem sum_filter_lengths (K : List Str) :
    ∀ els : List ElementWordCount, K.Nodup → (∀ e ∈ els, e.type ∈ K) →
      (K.map (fun ty => (els.filter (fun e => e.type = ty)).length)).sum =
        els.length := by
  induction K with
  | nil =>
    intro els _ hcov
    cases els with
    | nil => rfl
    | cons e es =>
      exact absurd (hcov e (List.mem_cons_self _ _)) (List.not_mem_nil _)
  | cons k K' ih =>
    intro els hnod hcov
    rw [List.nodup_cons] at hnod
    rw [List.map_cons, List.sum_cons]
    have hfilter_eq : ∀ ty ∈ K',
        els.filter (fun e => e.type = ty) =
          (els.filter (fun e => ¬ (e.type = k))).filter
            (fun e => e.type = ty) := by
      intro ty hty
      have hne : ty ≠ k := fun h => hnod.1 (h ▸ hty)
      rw [List.filter_filter]
      refine (List.filter_congr ?_)
      intro a _
      by_cases ha : a.type = ty
      · have hak : ¬ (a.type = k) := fun h => hne ((ha.symm.trans h))
        simp [ha, hak, hne]
      · simp [ha]
    have hmaps :
        K'.map (fun ty => (els.filter (fun e => e.type = ty)).length) =
          K'.map (fun ty =>
            ((els.filter (fun e => ¬ (e.type = k))).filter
              (fun e => e.type = ty)).length) := by
      refine List.map_congr_left ?_
      intro ty hty
      rw [hfilter_eq ty hty]
    have hcov' : ∀ e ∈ els.filter (fun e => ¬ (e.type = k)), e.type ∈ K' := by
      intro e he
      rw [List.mem_filter] at he
      have := hcov e he.1
      rcases List.mem_cons.mp this with h | h
      · exact absurd h (by simpa using he.2)
      · exact h
    rw [hmaps, ih _ hnod.2 hcov', length_filter_split]

/-- C8: `topElements` is the prefix of length `min 10 n` of the stable
descending-by-`wordCount` ordering of the element records: a permutation
of all records, sorted descending, in which records of equal `wordCount`
keep their original encounter order, cut after the first 10. -/
theorem topElements_ten_greatest_stable (t : TitleStructure) :
    ∃ s : List ElementWordCount,
      (elemsOf t.root).Perm s ∧
      s.Pairwise (fun a b => b.wordCount ≤ a.wordCount) ∧
      (∀ w : Nat, s.filter (fun e => e.wordCount = w) =
        (elemsOf t.root).filter (fun e => e.wordCount = w)) ∧
      (analyzeWordCount t).topElements = s.take 10 ∧
      (analyzeWordCount t).topElements.length = min 10 (elemsOf t.root).length := by
  refine ⟨sortStable (fun a b => decide (b.wordCount ≤ a.wordCount))
    (elemsOf t.root), ?_, ?_, ?_, ?_, ?_⟩
  · exact (sortStable_perm _ _).symm
  · have h := sortStable_pairwise
      (fun (a b : ElementWordCount) => decide (b.wordCount ≤ a.wordCount))
      (fun a b => by
        rcases Nat.le_total b.wordCount a.wordCount with h | h <;> simp [h])
      (fun a b c hab hbc => by
        simp only [decide_eq_true_eq] at hab hbc ⊢
        exact Nat.le_trans hbc hab)
      (elemsOf t.root)
    exact h.imp (fun hab => of_decide_eq_true hab)
  · intro w
    exact filter_sortStable_key (fun e => e.wordCount) (elemsOf t.root) w
  · simp [analyzeWordCount, processNode_spec]
  · have hlen : (sortStable (fun (a b : ElementWordCount) =>
        decide (b.wordCount ≤ a.wordCount)) (elemsOf t.root)).length =
        (elemsOf t.root).length :=
      (sortStable_perm _ _).length_eq
    simp [analyzeWordCount, processNode_spec, List.length_take, hlen]

/-- C6: `byHierarchy` has exactly one record per `type` value present in
the tree; each record's `count` is the number of nodes of that type,
its `totalWords` is the sum of their own word counts, `averageWords` is
`totalWords / count`, the counts partition the node set (no node
double-counted, no type omitted), and the records are sorted
lexicographically by `type`. -/
theorem byHierarchy_partitions_nodes_by_type (t : TitleStructure) :
    (∀ rec ∈ (analyzeWordCount t).byHierarchy,
      rec.count =
        ((elemsOf t.root).filter (fun e => e.type = rec.type)).length ∧
      rec.totalWords =
        sumWc ((elemsOf t.root).filter (fun e => e.type = rec.type)) ∧
      rec.averageWords = (rec.totalWords : ℚ) / (rec.count : ℚ)) ∧
    ((analyzeWordCount t).byHierarchy.map (fun r => r.type)).Nodup ∧
    (∀ ty : Str,
      (∃ rec ∈ (analyzeWordCount t).byHierarchy, rec.type = ty) ↔
        ∃ e ∈ elemsOf t.root, e.type = ty) ∧
    ((analyzeWordCount t).byHierarchy.map (fun r => r.count)).sum =
      (elemsOf t.root).length ∧
    (analyzeWordCount t).byHierarchy.Pairwise
      (fun a b => strLt b.type a.type = false) := by
  have hby : (analyzeWordCount t).byHierarchy =
      sortStable hierLe ((hFold [] (elemsOf t.root)).map hierRecordOf) := by
    simp [analyzeWordCount, processNode_spec, hFold]
  have hfind : ∀ ty, mapFind (hFold [] (elemsOf t.root)) ty =
      hSummary (elemsOf t.root) ty := by
    have h0 : ∀ ty, mapFind ([] : HMap) ty = hSummary [] ty := fun _ => rfl
    have h1 := hFold_find (elemsOf t.root) [] [] h0
    simpa using h1
  have hkeys : keysOf (hFold [] (elemsOf t.root)) =
      ((elemsOf t.root).map (fun e => e.type)).foldl addUnique [] :=
    keysOf_hFold (elemsOf t.root) []
  have hknodup : (keysOf (hFold [] (elemsOf t.root))).Nodup := by
    rw [hkeys]
    exact nodup_foldl_addUnique _ [] List.nodup_nil
  have hkmem : ∀ ty, ty ∈ keysOf (hFold [] (elemsOf t.root)) ↔
      ∃ e ∈ elemsOf t.root, e.type = ty := by
    intro ty
    rw [hkeys, mem_foldl_addUnique]
    simp [List.mem_map]
  have hentry : ∀ p ∈ hFold [] (elemsOf t.root),
      p.2 = ⟨((elemsOf t.root).filter (fun e => e.type = p.1)).length,
             sumWc ((elemsOf t.root).filter (fun e => e.type = p.1))⟩ ∧
      ((elemsOf t.root).filter (fun e => e.type = p.1)) ≠ [] := by
    intro p hp
    have h1 : mapFind (hFold [] (elemsOf t.root)) p.1 = some p.2 :=
      mapFind_entry _ hknodup p hp
    rw [hfind p.1] at h1
    simp only [hSummary] at h1
    cases hc : (elemsOf t.root).filter (fun e => e.type = p.1) with
    | nil =>
      rw [hc] at h1
      exact absurd h1 (by simp)
    | cons x xs =>
      rw [hc] at h1
      rw [if_neg (by simp)] at h1
      exact ⟨(Option.some.inj h1).symm, by simp⟩
  refine ⟨?_, ?_, ?_, ?_, ?_⟩
  · intro rec hrec
    rw [hby] at hrec
    have hmem : rec ∈ (hFold [] (elemsOf t.root)).map hierRecordOf :=
      (sortStable_perm _ _).mem_iff.mp hrec
    obtain ⟨p, hp, hrec_eq⟩ := List.mem_map.mp hmem
    subst hrec_eq
    obtain ⟨hpv, hne⟩ := hentry p hp
    refine ⟨?_, ?_, ?_⟩
    · show p.2.count = _
      rw [hpv]
      rfl
    · show p.2.totalWords = _
      rw [hpv]
      rfl
    · have hpos : p.2.count > 0 := by
        rw [hpv]
        exact List.length_pos.mpr hne
      show (if p.2.count > 0 then (p.2.totalWords : ℚ) / (p.2.count : ℚ)
        else 0) = _
      rw [if_pos hpos]
      rfl
  · rw [hby]
    have hperm :=
      (sortStable_perm hierLe ((hFold [] (elemsOf t.root)).map hierRecordOf)).map
        (fun r => r.type)
    have h2 : (((hFold [] (elemsOf t.root)).map hierRecordOf).map
        (fun r => r.type)).Nodup := by
      rw [List.map_map]
      exact hknodup
    exact hperm.nodup_iff.mpr h2
  · intro ty
    rw [hby]
    have e1 : (∃ rec ∈ sortStable hierLe
        ((hFold [] (elemsOf t.root)).map hierRecordOf), rec.type = ty) ↔
        ty ∈ ((hFold [] (elemsOf t.root)).map hierRecordOf).map
          (fun r => r.type) := by
      constructor
      · rintro ⟨rec, hrec, rfl⟩
        exact List.mem_map_of_mem _ ((sortStable_perm _ _).mem_iff.mp hrec)
      · intro hty
        obtain ⟨rec, hrec, rfl⟩ := List.mem_map.mp hty
        exact ⟨rec, (sortStable_perm _ _).mem_iff.mpr hrec, rfl⟩
    rw [e1, List.map_map]
    exact hkmem ty
  · rw [hby]
    have hperm :=
      (sortStable_perm hierLe ((hFold [] (elemsOf t.root)).map hierRecordOf)).map
        (fun r => r.count)
    rw [List.Perm.sum_eq hperm, List.map_map]
    have hcong : (hFold [] (elemsOf t.root)).map
        ((fun r => r.count) ∘ hierRecordOf) =
        (hFold [] (elemsOf t.root)).map (fun p =>
          ((elemsOf t.root).filter (fun e => e.type = p.1)).length) := by
      refine List.map_congr_left ?_
      intro p hp
      show (hierRecordOf p).count = _
      show p.2.count = _
      rw [(hentry p hp).1]
    rw [hcong]
    have hkeysum : ((keysOf (hFold [] (elemsOf t.root))).map
        (fun ty => ((elemsOf t.root).filter (fun e => e.type = ty)).length)).sum =
        (elemsOf t.root).length := by
      apply sum_filter_lengths _ _ hknodup
      intro e he
      exact (hkmem e.type).mpr ⟨e, he, rfl⟩
    rw [keysOf, List.map_map] at hkeysum
    exact hkeysum
  · rw [hby]
    have hsorted := sortStable_pairwise hierLe
      (fun a b => strNotLt_total a.type b.type)
      (fun a b c h1 h2 => strNotLt_trans a.type b.type c.type h1 h2)
      ((hFold [] (elemsOf t.root)).map hierRecordOf)
    exact hsorted.imp (fun h => by simpa [hierLe] using h)

theorem aFold_nil (m : AMap) : aFold m [] = m := rfl

theorem aFold_cons (m : AMap) (p : Str × AgencyStat)
    (ps : List (Str × AgencyStat)) :
    aFold m (p :: ps) = aFold (mapSet m p.1 p.2) ps := rfl

theorem aFold_append (m : AMap) (ps qs : List (Str × AgencyStat)) :
    aFold m (ps ++ qs) = aFold (aFold m ps) qs := by
  simp [aFold, List.foldl_append]

mutual

theorem processAgency_spec (a : Agency) (m : AMap) :
    processAgency a m = aFold m (emittedStats a) := by
  cases a with
  | mk name slug short_name cfr_references children =>
    cases children with
    | none =>
      by_cases hcond : (agencyRefSets cfr_references).1.length > 0 <;>
        simp [processAgency, emittedStats, hcond, aFold]
    | some cs =>
      have hrec : ∀ rs : AMap,
          processAgencyList cs rs = aFold rs (emittedStatsList cs) :=
        fun rs => processAgencyList_spec cs rs
      by_cases hlen : cs.length > 0
      · by_cases hcond : (agencyRefSets cfr_references).1.length > 0 <;>
          simp [processAgency, emittedStats, hcond, hlen, hrec, aFold_append,
            aFold]
      · have hnil : cs = [] := List.length_eq_zero.mp (by omega)
        subst hnil
        by_cases hcond : (agencyRefSets cfr_references).1.length > 0 <;>
          simp [processAgency, emittedStats, hcond, aFold]

theorem processAgencyList_spec (l : List Agency) (m : AMap) :
    processAgencyList l m = aFold m (emittedStatsList l) := by
  cases l with
  | nil => rfl
  | cons c cs =>
    have h1 := processAgency_spec c m
    have h2 := processAgencyList_spec cs (processAgency c m)
    calc processAgencyList (c :: cs) m
        = processAgencyList cs (processAgency c m) := rfl
      _ = aFold (processAgency c m) (emittedStatsList cs) := h2
      _ = aFold (aFold m (emittedStats c)) (emittedStatsList cs) := by
          rw [h1]
      _ = aFold m (emittedStats c ++ emittedStatsList cs) :=
          (aFold_append m _ _).symm
      _ = aFold m (emittedStatsList (c :: cs)) := rfl

end

theorem aFind_aFold (ps : List (Str × AgencyStat)) :
    ∀ (m : AMap) (k : Str),
      mapFind (aFold m ps) k =
        match lastWrite k ps with
        | some v => some v
        | none => mapFind m k := by
  induction ps with
  | nil => intro m k; rfl
  | cons p ps ih =>
    intro m k
    rw [aFold_cons, ih]
    cases hl : lastWrite k ps with
    | some v => simp [lastWrite, hl]
    | none =>
      rw [mapFind_mapSet]
      by_cases hp : p.1 = k <;> simp [lastWrite, hl, hp]

/-- C7: when nodes at different forest positions share a slug, the record
held for that slug after the walk (the record `analyzeAgencyStats`' map,
queried here through `getAgencyBySlug`, exposes) is the one produced by
the last-visited emitting node: the lookup always returns the final
`(slug, stat)` store of the depth-first emission sequence. -/
theorem duplicate_slug_last_write_wins (agencies : List Agency) (slug : Str) :
    getAgencyBySlug agencies slug =
      lastWrite slug (emittedStatsList agencies) := by
  show mapFind (processAgencyList agencies []) slug = _
  rw [processAgencyList_spec, aFind_aFold]
  cases hl : lastWrite slug (emittedStatsList agencies) <;> simp [hl, mapFind]

theorem keysOf_aFold (ps : List (Str × AgencyStat)) :
    ∀ m : AMap,
      keysOf (aFold m ps) =
        (ps.map (fun p => p.1)).foldl addUnique (keysOf m) := by
  induction ps with
  | nil => intro m; rfl
  | cons p ps ih =>
    intro m
    rw [aFold_cons, ih, List.map_cons, List.foldl_cons, keysOf_mapSet]

theorem keysOf_agency_map (agencies : List Agency) :
    keysOf (processAgencyList agencies []) =
      (emittedSlugsList agencies).foldl addUnique [] := by
  rw [processAgencyList_spec, keysOf_aFold]
  rfl

theorem foldl_addUnique_card [DecidableEq α] (l : List α) :
    (l.foldl addUnique []).length = l.toFinset.card := by
  have hnodup : (l.foldl addUnique []).Nodup :=
    nodup_foldl_addUnique l [] List.nodup_nil
  have hmem : ∀ x, x ∈ l.foldl addUnique [] ↔ x ∈ l := by
    intro x
    rw [mem_foldl_addUnique]
    simp
  have hfs : (l.foldl addUnique []).toFinset = l.toFinset := by
    apply Finset.ext
    intro x
    simp only [List.mem_toFinset]
    exact hmem x
  rw [← List.toFinset_card_of_nodup hnodup, hfs]

theorem foldl_addUnique_eq_nil [DecidableEq α] (l : List α) :
    l.foldl addUnique [] = [] ↔ l = [] := by
  constructor
  · intro h
    cases l with
    | nil => rfl
    | cons x xs =>
      have hx : x ∈ List.foldl addUnique [] (x :: xs) :=
        (mem_foldl_addUnique _ _ _).mpr (Or.inr (List.mem_cons_self _ _))
      rw [h] at hx
      exact absurd hx (List.not_mem_nil x)
  · intro h
    rw [h]
    rfl

theorem agenciesWithReferences_eq_distinct_slugs (agencies : List Agency)
    (titles : Option (List Title)) :
    (analyzeAgencyStats agencies titles).agenciesWithReferences =
      ((emittedSlugsList agencies).foldl addUnique []).length := by
  have h1 : (analyzeAgencyStats agencies titles).agenciesWithReferences =
      (processAgencyList agencies []).length := by
    simp [analyzeAgencyStats]
  rw [h1, ← keysOf_agency_map]
  simp [keysOf]

/-- C5 counterexample: in a forest whose two roots both carry slug `"a"`
and one CFR reference each, two per-node Agency Stat records are emitted
(one per visited node with a non-empty distinct-title set), yet
`agenciesWithReferences` is 1, because the slug-keyed map collapses the
two emissions. -/
theorem agenciesWithReferences_not_emission_count :
    (analyzeAgencyStats
      [Agency.mk "Agency A".toList "a".toList none
          (some [⟨1, none, none⟩]) none,
        Agency.mk "Agency A2".toList "a".toList none
          (some [⟨2, none, none⟩]) none] none).agenciesWithReferences = 1 ∧
    (emittedSlugsList
      [Agency.mk "Agency A".toList "a".toList none
          (some [⟨1, none, none⟩]) none,
        Agency.mk "Agency A2".toList "a".toList none
          (some [⟨2, none, none⟩]) none]).length = 2 :=
  ⟨rfl, rfl⟩

/-- C5 (amended): `totalAgencies` counts only the forest roots,
`agenciesWithReferences` equals the number of **distinct** slugs among
the visited nodes whose distinct-title set is non-empty, and
`totalTitles` is the length of the provided registry, or 50 when no
registry is supplied. -/
theorem analyzeAgencyStats_totals (agencies : List Agency)
    (titles : Option (List Title)) :
    (analyzeAgencyStats agencies titles).totalAgencies = agencies.length ∧
    (analyzeAgencyStats agencies titles).agenciesWithReferences =
      (emittedSlugsList agencies).toFinset.card ∧
    (analyzeAgencyStats agencies titles).totalTitles =
      titles.elim 50 (fun ts => ts.length) := by
  refine ⟨rfl, ?_, ?_⟩
  · rw [agenciesWithReferences_eq_distinct_slugs, foldl_addUnique_card]
  · cases titles <;> rfl

theorem foldl_add_titleCount (l : List AgencyStat) (a : Nat) :
    l.foldl (fun sum stat => sum + stat.titleCount) a =
      a + sumTitleCounts l := by
  induction l generalizing a with
  | nil => simp [sumTitleCounts]
  | cons s rest ih => simp [sumTitleCounts, ih, Nat.add_assoc]

/-- C9 counterexample: on the duplicate-slug forest, the per-visited-node
emitted stats' `titleCount` values sum to 4 and `agenciesWithReferences`
is 1, but the code averages over the deduplicated slug-keyed map
(sum 1), giving 1 — not the emitted-stat quotient 4. -/
theorem averageTitles_not_emitted_stat_quotient :
    (analyzeAgencyStats dupSlugForest none).agenciesWithReferences = 1 ∧
    sumTitleCounts ((emittedStatsList dupSlugForest).map (fun p => p.2)) = 4 ∧
    (analyzeAgencyStats dupSlugForest none).averageTitlesPerAgency ≠
      (sumTitleCounts ((emittedStatsList dupSlugForest).map (fun p => p.2)) : ℚ) /
        ((analyzeAgencyStats dupSlugForest none).agenciesWithReferences : ℚ) := by
  refine ⟨rfl, rfl, ?_⟩
  have h1 : (analyzeAgencyStats dupSlugForest none).averageTitlesPerAgency =
      ((1 : Nat) : ℚ) / ((1 : Nat) : ℚ) := rfl
  have h2 : sumTitleCounts
      ((emittedStatsList dupSlugForest).map (fun p => p.2)) = 4 := rfl
  have h3 : (analyzeAgencyStats dupSlugForest none).agenciesWithReferences =
      1 := rfl
  rw [h1, h2, h3]
  norm_num

/-- C9 (amended): `averageTitlesPerAgency` is the sum of the `titleCount`
values of the stats present in the result mapping (one per distinct
emitting slug, last write wins) divided by `agenciesWithReferences` when
that count is positive, and 0 otherwise; `agenciesWithReferences` is 0
exactly when no visited agency has any title reference.  (Numbers are
modelled as exact rationals, so the guarded division is always a finite
value.) -/
theorem averageTitlesPerAgency_well_defined (agencies : List Agency)
    (titles : Option (List Title)) :
    (analyzeAgencyStats agencies titles).averageTitlesPerAgency =
      (if 0 < (analyzeAgencyStats agencies titles).agenciesWithReferences then
        (sumTitleCounts (statsOf agencies) : ℚ) /
          ((analyzeAgencyStats agencies titles).agenciesWithReferences : ℚ)
      else 0) ∧
    ((analyzeAgencyStats agencies titles).agenciesWithReferences = 0 ↔
      emittedSlugsList agencies = []) := by
  constructor
  · have h2 : (analyzeAgencyStats agencies titles).averageTitlesPerAgency =
        if 0 < ((processAgencyList agencies []).map (fun p => p.2)).length then
          ((((processAgencyList agencies []).map (fun p => p.2)).foldl
            (fun sum stat => sum + stat.titleCount) 0 : Nat) : ℚ) /
            ((((processAgencyList agencies []).map (fun p => p.2)).length : Nat) : ℚ)
        else 0 := rfl
    rw [h2, foldl_add_titleCount, Nat.zero_add]
    rfl
  · rw [agenciesWithReferences_eq_distinct_slugs, List.length_eq_zero,
      foldl_addUnique_eq_nil]

/-- C2 counterexample: on the empty batch `getWordCountSummary` does not
raise; it returns a record whose `longestTitle` is `undefined`
(modelled as `none`). -/
theorem summary_empty_batch_longestTitle_undefined :
    (getWordCountSummary []).longestTitle = none := rfl

/-- C2 (amended): calling the summary projection on an empty batch does
not raise an explicit error; it returns a record with zero counts,
`averageWordsPerTitle` 0, and `longestTitle`/`shortestTitle` undefined
(the `reduce` with initial element `results[0]` yields `undefined`). -/
theorem summary_empty_batch_returns_undefined_extremes :
    getWordCountSummary [] =
      { titleCount := 0
        totalWords := 0
        totalElements := 0
        averageWordsPerTitle := 0
        longestTitle := none
        shortestTitle := none } := rfl

/-- C4 counterexample: `retryWithBackoff` makes a second call after a
first-attempt error that `isRetryableError` classifies as
non-retryable — the error is not propagated immediately (the run ends in
success on attempt 2 after one 1000ms wait). -/
theorem retry_retries_non_retryable_error :
    isRetryableError (some ⟨"Some other error".toList, none⟩) = false ∧
    retryWithBackoff
      (fun attempt => if attempt = 1 then
        Except.error (⟨"Some other error".toList, none⟩ : JsError)
      else Except.ok (42 : Nat)) {} =
      (Except.ok 42, 2, [1000]) :=
  ⟨rfl, rfl⟩

theorem retryAux_all_fail {α : Type} (fn : Nat → Except JsError α)
    (maxDelay factor : Nat) (err : Nat → JsError) :
    ∀ (rem attempt delay : Nat) (waits : List Nat), 1 ≤ rem →
      (∀ j, attempt ≤ j → j ≤ attempt + rem - 1 →
        fn j = Except.error (err j)) →
      retryAux fn maxDelay factor rem attempt delay waits =
        (Except.error (err (attempt + rem - 1)), attempt + rem - 1,
          waits ++ (List.range (rem - 1)).map
            (fun i => min (delay * factor ^ i) maxDelay)) := by
  intro rem
  induction rem with
  | zero =>
    intro _ _ _ h
    omega
  | succ r ih =>
    intro attempt delay waits _ hfail
    have hfa : fn attempt = Except.error (err attempt) :=
      hfail attempt (Nat.le_refl _) (by omega)
    cases r with
    | zero =>
      simp [retryAux, hfa]
    | succ r' =>
      have hstep : retryAux fn maxDelay factor (r' + 1 + 1) attempt delay
          waits =
          retryAux fn maxDelay factor (r' + 1) (attempt + 1) (delay * factor)
            (waits ++ [min delay maxDelay]) := by
        simp [retryAux, hfa]
      have hrec := ih (attempt + 1) (delay * factor)
        (waits ++ [min delay maxDelay]) (by omega)
        (fun j hj1 hj2 => hfail j (by omega) (by omega))
      rw [hstep, hrec]
      have hidx : attempt + 1 + (r' + 1) - 1 = attempt + (r' + 1 + 1) - 1 := by
        omega
      have hshift : min delay maxDelay :: (List.range r').map
            (fun i => min (delay * factor * factor ^ i) maxDelay) =
          (List.range (r' + 1)).map
            (fun i => min (delay * factor ^ i) maxDelay) := by
        rw [List.range_succ_eq_map, List.map_cons, List.map_map]
        refine congrArg₂ (· :: ·) (by simp) ?_
        refine List.map_congr_left ?_
        intro i _
        show min (delay * factor * factor ^ i) maxDelay =
          min (delay * factor ^ (i + 1)) maxDelay
        congr 1
        ring
      simp only [Prod.mk.injEq]
      refine ⟨?_, ?_, ?_⟩
      · rw [hidx]
      · rw [hidx]
      · rw [List.append_assoc]
        refine congrArg₂ (· ++ ·) rfl ?_
        exact hshift

/-- C4 (amended): `retryWithBackoff` retries after every failed attempt,
whatever the error thrown — `isRetryableError` is never consulted —
waiting `min(initialDelay * factor^i, maxDelay)` between attempts; when
every attempt fails, all `maxAttempts` calls are made and only then is
the final attempt's error propagated to the caller. -/
theorem retryWithBackoff_retries_until_exhaustion {α : Type}
    (fn : Nat → Except JsError α) (options : RetryOptions)
    (err : Nat → JsError)
    (h1 : 1 ≤ options.maxAttempts)
    (hfail : ∀ j, 1 ≤ j → j ≤ options.maxAttempts →
      fn j = Except.error (err j)) :
    retryWithBackoff fn options =
      (Except.error (err options.maxAttempts), options.maxAttempts,
        (List.range (options.maxAttempts - 1)).map
          (fun i => min (options.initialDelay * options.factor ^ i)
            options.maxDelay)) := by
  have h := retryAux_all_fail fn options.maxDelay options.factor err
    options.maxAttempts 1 options.initialDelay [] h1
    (fun j hj1 hj2 => hfail j hj1 (by omega))
  have hidx : 1 + options.maxAttempts - 1 = options.maxAttempts := by omega
  rw [hidx, List.nil_append] at h
  exact h

/-- Witness for the amended C4 theorem: a function failing on every
attempt with a non-retryable error, under the default options — three
calls are made, two capped waits are slept, and the last error is then
propagated. -/
theorem retryWithBackoff_exhaustion_witness :
    retryWithBackoff
      (fun _ => Except.error (⟨"Some other error".toList, none⟩ : JsError) :
        Nat → Except JsError Nat) {} =
      (Except.error (⟨"Some other error".toList, none⟩ : JsError), 3,
        [1000, 2000]) :=
  (retryWithBackoff_retries_until_exhaustion
      (fun _ => Except.error (⟨"Some other error".toList, none⟩ : JsError))
      {} (fun _ => ⟨"Some other error".toList, none⟩)
      (by decide) (fun _ _ _ => rfl)).trans (by rfl)

/-- Witness for the C6 theorem at a concrete two-node tree, instantiating
the per-record conjunct at the `"section"` record and discharging the
membership hypothesis by evaluation. -/
theorem byHierarchy_partitions_witness :
    (hierRecordOf ("section".toList, ⟨1, 2⟩)).count =
      ((elemsOf (StructureNode.mk "t".toList "title".toList none none none
          [StructureNode.mk "s".toList "section".toList none
            (some "one two".toList) none []])).filter
        (fun e => e.type =
          (hierRecordOf ("section".toList, ⟨1, 2⟩)).type)).length :=
  ((byHierarchy_partitions_nodes_by_type
      ⟨17, StructureNode.mk "t".toList "title".toList none none none
        [StructureNode.mk "s".toList "section".toList none
          (some "one two".toList) none []]⟩).1
    (hierRecordOf ("section".toList, ⟨1, 2⟩))
    (by
      have h : (analyzeWordCount
          ⟨17, StructureNode.mk "t".toList "title".toList none none none
            [StructureNode.mk "s".toList "section".toList none
              (some "one two".toList) none []]⟩).byHierarchy =
          [hierRecordOf ("section".toList, ⟨1, 2⟩),
            hierRecordOf ("title".toList, ⟨1, 0⟩)] := rfl
      rw [h]
      exact List.mem_cons_self _ _)).1
